import Mathlib

/-
Verification of the gobox `xargs` command-dispatch engine.

This development shallowly embeds the engine implemented in `cmd_xargs.go`:
the tokenizer (the scanner loop of `xargsCmd` together with
`makeDelimiterSplitFunc` and the default line splitter), the two job
builders (`executeReplaceMode` and `executeAppendMode`), the top-level
mode/empty-input decision of `xargsCmd`, the shared last-error cell that
aggregates per-job results, and the channel-based admission gate of the
dispatcher, which is modelled as a small-step transition system.

Strings are modelled as `List Char`.  Recursive functions that Go writes as
loops are given fuel-based structural recursions (the fuel is always the
length of the list being consumed, which bounds the loop), so that every
definition computes by `decide`/`rfl`.
-/

namespace Gobox

/-- Strings of the Go program, modelled as lists of characters. -/
abbrev Str := List Char

/-! ## Tokenizer (lines 62-79 of cmd_xargs.go, and makeDelimiterSplitFunc) -/

/-- Go `unicode.IsSpace`: the Unicode White_Space property.  The full set of
White_Space code points is 0x9-0xD, 0x20, 0x85, 0xA0, 0x1680, 0x2000-0x200A,
0x2028, 0x2029, 0x202F, 0x205F and 0x3000. -/
def goIsSpace (c : Char) : Bool :=
  c.toNat ∈ [0x9, 0xA, 0xB, 0xC, 0xD, 0x20, 0x85, 0xA0, 0x1680,
    0x2000, 0x2001, 0x2002, 0x2003, 0x2004, 0x2005, 0x2006, 0x2007,
    0x2008, 0x2009, 0x200A, 0x2028, 0x2029, 0x202F, 0x205F, 0x3000]

/-- Leading-whitespace removal, first half of Go `strings.TrimSpace`. -/
def trimLeft (s : Str) : Str := s.dropWhile goIsSpace

/-- Trailing-whitespace removal, second half of Go `strings.TrimSpace`. -/
def trimRight (s : Str) : Str := (s.reverse.dropWhile goIsSpace).reverse

/-- Go `strings.TrimSpace`: drop leading and trailing whitespace. -/
def trimSpace (s : Str) : Str := trimRight (trimLeft s)

/-- Index of the first occurrence of `d` as a contiguous substring of `s`,
Go `strings.Index` (for the non-empty needles used by the program). -/
def firstOcc (d : Str) : Str → Option Nat
  | [] => none
  | c :: rest =>
    if d.isPrefixOf (c :: rest) then some 0 else (firstOcc d rest).map (· + 1)

/-- Fuel-driven scanner loop over `makeDelimiterSplitFunc d` (lines 211-233):
repeatedly emit the bytes before the first occurrence of `d` and advance past
it; at end of data the remaining bytes form the final token, and exhausted
empty data produces no token.  `fuel ≥ length of the data` makes the fuel
bound irrelevant. -/
def tokenizeFuel (d : Str) : Nat → Str → List Str
  | _, [] => []
  | 0, _ => []
  | fuel + 1, c :: rest =>
    match firstOcc d (c :: rest) with
    | some i => (c :: rest).take i :: tokenizeFuel d fuel ((c :: rest).drop (i + d.length))
    | none => [c :: rest]

/-- Token stream produced by scanning `s` with `makeDelimiterSplitFunc d`.
The scanner is never used with an empty delimiter (the claims all assume a
non-empty one); `tokenizeFuel` is totalised by the fuel `s.length`, which
suffices because each emitted token consumes at least `d.length ≥ 1` bytes. -/
def tokenize (d : Str) (s : Str) : List Str := tokenizeFuel d s.length s

/-- Go `bufio.ScanLines` drops one trailing carriage return from each line. -/
def dropCR (s : Str) : Str :=
  if s.getLast? = some '\r' then s.dropLast else s

/-- Token stream of the default `bufio.ScanLines` splitter: split on the
newline character, then strip one trailing CR from each line. -/
def scanLines (s : Str) : List Str := (tokenize ['\n'] s).map dropCR

/-- The input-reading loop of `xargsCmd` (lines 62-79): scan with the default
line splitter when the delimiter is the newline, otherwise with
`makeDelimiterSplitFunc`; `strings.TrimSpace` every token and keep only the
non-empty ones. -/
def xargsInputs (delim : Str) (stream : Str) : List Str :=
  let raw := if delim = ['\n'] then scanLines stream else tokenize delim stream
  (raw.map trimSpace).filter (fun t => !t.isEmpty)

/-! ## Replace mode (executeReplaceMode, lines 108-153) -/

/-- Fuel-driven core of Go `strings.ReplaceAll` for a non-empty pattern
`old`: scan left to right, replacing each non-overlapping occurrence of
`old` by `new`.  When `old` matches at the head, the whole match
(`old.length` characters, i.e. the head plus `old.length - 1` characters of
the tail) is consumed. -/
def replaceFuel (old new : Str) : Nat → Str → Str
  | _, [] => []
  | 0, _ => []
  | fuel + 1, c :: rest =>
    if old.isPrefixOf (c :: rest) then
      new ++ replaceFuel old new fuel (rest.drop (old.length - 1))
    else
      c :: replaceFuel old new fuel rest

/-- Go `strings.ReplaceAll s old new`.  For an empty `old`, Go inserts `new`
before every character and at the end; the program only ever calls this with
the non-empty placeholder. -/
def replaceAll (s old new : Str) : Str :=
  if old.isEmpty then new ++ s.foldr (fun c acc => c :: (new ++ acc)) []
  else replaceFuel old new s.length s

/-- Argv lists built by `executeReplaceMode` (lines 116-132): one job per
input token, in token order; each job's argv is the command template with
`strings.ReplaceAll arg replaceString input` applied to every argument
independently. -/
def buildReplaceArgvs (baseCmd : List Str) (inputs : List Str) (replaceString : Str) :
    List (List Str) :=
  inputs.map (fun inp => baseCmd.map (fun arg => replaceAll arg replaceString inp))

/-! ## Append mode (executeAppendMode, lines 155-208) -/

/-- Fuel-driven batching loop of `executeAppendMode` (lines 167-173): take
`k` tokens at a time until the input is exhausted.  The loop is never
reached with `k = 0` and a non-empty list (that combination would not
terminate in Go either); the guard returns no batches there. -/
def chunksFuel {α : Type} (k : Nat) : Nat → List α → List (List α)
  | _, [] => []
  | 0, _ => []
  | fuel + 1, x :: xs =>
    if k = 0 then []
    else (x :: xs).take k :: chunksFuel k fuel ((x :: xs).drop k)

/-- Contiguous batches of at most `k` elements, in order. -/
def chunks {α : Type} (k : Nat) (l : List α) : List (List α) :=
  chunksFuel k l.length l

/-- Effective batch size of `executeAppendMode` (lines 157-159): a
non-positive `batchSize` is replaced by the number of inputs, so that a
single batch holds everything. -/
def effectiveBatch (batchSize : Int) (inputs : List Str) : Nat :=
  if batchSize ≤ 0 then inputs.length else batchSize.toNat

/-- Argv lists built by `executeAppendMode` (lines 167-187): one job per
batch; each job's argv is the command template followed by the batch. -/
def buildAppendArgvs (baseCmd : List Str) (inputs : List Str) (batchSize : Int) :
    List (List Str) :=
  (chunks (effectiveBatch batchSize inputs) inputs).map (fun batch => baseCmd ++ batch)

/-! ## Top-level plan of xargsCmd (lines 81-106) and process wiring -/

/-- A concrete external-process invocation together with which of the
engine's standard streams are attached to the child. -/
structure Invocation where
  argv : List Str
  stdinAttached : Bool
  stdoutAttached : Bool
  stderrAttached : Bool
deriving DecidableEq, Repr

/-- Wiring of every job spawned by `executeReplaceMode` (lines 138-140) and
`executeAppendMode` (lines 193-195): stdout and stderr are connected to the
engine's streams, stdin is left unset. -/
def jobInvocation (argv : List Str) : Invocation :=
  { argv := argv, stdinAttached := false, stdoutAttached := true, stderrAttached := true }

/-- Wiring of the single bare-template run on empty input (lines 91-94):
stdin, stdout and stderr are all connected to the engine's streams. -/
def bareInvocation (argv : List Str) : Invocation :=
  { argv := argv, stdinAttached := true, stdoutAttached := true, stderrAttached := true }

/-- What `xargsCmd` decides to execute after reading its input. -/
inductive XargsPlan
  | noOp
  | bare (argv : List Str)
  | dispatch (argvs : List (List Str))
deriving DecidableEq, Repr

/-- The decision structure of `xargsCmd` (lines 81-106): on empty input,
return immediately when the `-r` flag is set, otherwise run the bare
template once; on non-empty input enter replace mode when a placeholder is
configured and append mode otherwise. -/
def xargsPlan (cmdArgs : List Str) (inputs : List Str) (replaceString : Str)
    (numArgs : Int) (noRun : Bool) : XargsPlan :=
  if inputs.isEmpty && noRun then XargsPlan.noOp
  else if inputs.isEmpty then XargsPlan.bare cmdArgs
  else if !replaceString.isEmpty then
    XargsPlan.dispatch (buildReplaceArgvs cmdArgs inputs replaceString)
  else
    XargsPlan.dispatch (buildAppendArgvs cmdArgs inputs numArgs)

/-- The process invocations a plan gives rise to, with their stream wiring. -/
def planInvocations : XargsPlan → List Invocation
  | XargsPlan.noOp => []
  | XargsPlan.bare argv => [bareInvocation argv]
  | XargsPlan.dispatch argvs => argvs.map jobInvocation

/-! ## Result aggregation (lines 142-146, 197-201, 152, 207) -/

/-- One mutex-protected update of the shared `lastErr` cell: a failing job
overwrites the cell with its error, a succeeding job leaves it alone. -/
def recordResult {α : Type} (cell : Option α) (res : Option α) : Option α :=
  match res with
  | some e => some e
  | none => cell

/-- Terminal value of the `lastErr` cell after the per-job outcomes have
been recorded in the given order. -/
def aggregateResults {α : Type} (results : List (Option α)) : Option α :=
  results.foldl recordResult none

/-! ## Dispatcher transition system (lines 110-151 and 161-206)

Both executors share one concurrency skeleton: a buffered channel
`semaphore` of capacity `maxProcs` acquired by the dispatch loop before
spawning each goroutine, an unbuffered `ready` channel on which the spawned
goroutine acknowledges its start before the loop proceeds, release of the
semaphore slot when the goroutine finishes, and a final `wg.Wait()`.  The
skeleton is modelled as a small-step transition system over the jobs
`0, ..., n-1`; the argv contents are irrelevant to it. -/

/-- Lifecycle of the goroutine of one job: not yet spawned; spawned while
holding a gate slot but not yet acknowledged on `ready`; acknowledged and
running; finished (gate slot released). -/
inductive GStatus
  | notSpawned
  | spawned
  | running
  | finished
deriving DecidableEq, Repr

/-- Program counter of the dispatch loop. -/
inductive MainPC
  | dispatching (next : Nat)
  | awaitingReady (j : Nat)
  | joining
  | done
deriving DecidableEq, Repr

/-- Global state of the dispatcher: the loop's program counter and the
status of each job's goroutine. -/
structure DState where
  pc : MainPC
  gs : List GStatus
deriving DecidableEq, Repr

/-- Status of job `i` (out-of-range indices read as not spawned). -/
def statusOf (s : DState) (i : Nat) : GStatus :=
  s.gs.getD i GStatus.notSpawned

/-- A goroutine holds its gate slot from spawn until completion. -/
def isActive : GStatus → Bool
  | GStatus.spawned => true
  | GStatus.running => true
  | _ => false

/-- A goroutine that has sent its `ready` acknowledgement has started. -/
def isStarted : GStatus → Bool
  | GStatus.running => true
  | GStatus.finished => true
  | _ => false

/-- Test for the running state. -/
def isRunningStatus : GStatus → Bool
  | GStatus.running => true
  | _ => false

/-- Number of gate slots currently held. -/
def activeCount (s : DState) : Nat := s.gs.countP isActive

/-- Number of jobs currently running. -/
def runningCount (s : DState) : Nat := s.gs.countP isRunningStatus

/-- Initial state: the loop is about to dispatch job 0 and no goroutine
exists yet. -/
def initState (n : Nat) : DState :=
  { pc := MainPC.dispatching 0, gs := List.replicate n GStatus.notSpawned }

/-- One atomic step of the dispatcher with gate capacity `C` over `n` jobs.
`acquireSpawn` is the loop body up to the `go` statement: it blocks until a
gate slot is free (`activeCount s < C`).  `readyAck` is the rendezvous on
the unbuffered `ready` channel, after which the loop proceeds to the next
job.  `finish` is a goroutine completing (in any order, at any time),
releasing its slot.  `loopExit` and `joinAll` are the loop end and
`wg.Wait()`. -/
inductive Step (C n : Nat) : DState → DState → Prop
  | acquireSpawn (s : DState) (j : Nat)
      (h1 : s.pc = MainPC.dispatching j) (h2 : j < n) (h3 : activeCount s < C) :
      Step C n s { pc := MainPC.awaitingReady j, gs := s.gs.set j GStatus.spawned }
  | readyAck (s : DState) (j : Nat)
      (h1 : s.pc = MainPC.awaitingReady j) (h2 : statusOf s j = GStatus.spawned) :
      Step C n s { pc := MainPC.dispatching (j + 1), gs := s.gs.set j GStatus.running }
  | loopExit (s : DState) (h1 : s.pc = MainPC.dispatching n) :
      Step C n s { pc := MainPC.joining, gs := s.gs }
  | finish (s : DState) (i : Nat) (h1 : statusOf s i = GStatus.running) :
      Step C n s { pc := s.pc, gs := s.gs.set i GStatus.finished }
  | joinAll (s : DState) (h1 : s.pc = MainPC.joining)
      (h2 : ∀ i, i < n → statusOf s i = GStatus.finished) :
      Step C n s { pc := MainPC.done, gs := s.gs }

/-- States reachable by the dispatcher from its initial state. -/
inductive Reach (C n : Nat) : DState → Prop
  | init : Reach C n (initState n)
  | step {s s' : DState} : Reach C n s → Step C n s s' → Reach C n s'

/-- Gate capacity used by the dispatcher: `make(chan struct{}, maxProcs)` on
lines 110 and 161 passes the configured `-P` value through verbatim. -/
def semaphoreCapacity (maxProcs : Int) : Int := maxProcs

/-- Inductive invariant of the dispatcher: the status list has one entry per
job; at most `C` gate slots are held; and the loop's program counter
determines the shape of the status list — every job before the dispatch
frontier has acknowledged its start, every job after it does not exist yet,
and while the loop waits on `ready` exactly the frontier job is in the
`spawned` state. -/
def Inv (C n : Nat) (s : DState) : Prop :=
  s.gs.length = n ∧ activeCount s ≤ C ∧
  (∀ k, s.pc = MainPC.dispatching k →
    k ≤ n ∧ (∀ i, i < k → isStarted (statusOf s i) = true) ∧
      (∀ i, k ≤ i → statusOf s i = GStatus.notSpawned)) ∧
  (∀ j, s.pc = MainPC.awaitingReady j →
    j < n ∧ statusOf s j = GStatus.spawned ∧
      (∀ i, i < j → isStarted (statusOf s i) = true) ∧
      (∀ i, j < i → statusOf s i = GStatus.notSpawned)) ∧
  ((s.pc = MainPC.joining ∨ s.pc = MainPC.done) →
    (∀ i, i < n → isStarted (statusOf s i) = true) ∧
      (∀ i, n ≤ i → statusOf s i = GStatus.notSpawned))

/-! ## Helper lemmas -/

/-- The element exposed at the head of `dropWhile` does not satisfy the
predicate. -/
theorem dropWhile_head_not {α : Type} (p : α → Bool) :
    ∀ (l : List α) (c : α) (rest : List α), l.dropWhile p = c :: rest → p c = false := by
  intro l
  induction l with
  | nil => intro c rest h; simp [List.dropWhile] at h
  | cons a t ih =>
      intro c rest h
      cases hpa : p a with
      | true => rw [List.dropWhile_cons, if_pos hpa] at h; exact ih c rest h
      | false =>
          rw [List.dropWhile_cons, if_neg (by simp [hpa])] at h
          cases h
          exact hpa

/-- `dropWhile` removes a prefix of the list. -/
theorem exists_append_dropWhile {α : Type} (p : α → Bool) (l : List α) :
    ∃ t, l = t ++ l.dropWhile p := by
  induction l with
  | nil => exact ⟨[], rfl⟩
  | cons a t ih =>
      cases hpa : p a with
      | true =>
          obtain ⟨u, hu⟩ := ih
          exact ⟨a :: u, by rw [List.dropWhile_cons, if_pos hpa]; simpa using hu⟩
      | false =>
          refine ⟨[], ?_⟩
          rw [List.dropWhile_cons, if_neg (by simp [hpa])]
          rfl

/-- `trimRight` keeps a prefix of its argument. -/
theorem exists_append_trimRight (s : Str) : ∃ t, s = trimRight s ++ t := by
  obtain ⟨u, hu⟩ := exists_append_dropWhile goIsSpace s.reverse
  refine ⟨u.reverse, ?_⟩
  have := congrArg List.reverse hu
  simpa [trimRight] using this

/-- The last character surviving `trimRight` is not whitespace. -/
theorem trimRight_getLast_not (s : Str) (c : Char)
    (h : (trimRight s).getLast? = some c) : goIsSpace c = false := by
  unfold trimRight at h
  rw [List.getLast?_reverse] at h
  cases hdw : s.reverse.dropWhile goIsSpace with
  | nil => rw [hdw] at h; simp at h
  | cons b rest =>
      rw [hdw] at h
      simp at h
      subst h
      exact dropWhile_head_not goIsSpace s.reverse b rest hdw

/-- Membership in a single-character needle search: `firstOcc [c] s` fails
exactly when `c` does not occur in `s`. -/
theorem firstOcc_singleton_none_iff (c : Char) (s : Str) :
    firstOcc [c] s = none ↔ c ∉ s := by
  induction s with
  | nil => simp [firstOcc]
  | cons a rest ih =>
      by_cases hca : c = a
      · subst hca
        simp [firstOcc, List.isPrefixOf]
      · have hpre : List.isPrefixOf [c] (a :: rest) = false := by
          simp [List.isPrefixOf]
          exact hca
        rw [firstOcc, hpre]
        simp only [Bool.false_eq_true, if_false]
        constructor
        · intro h hmem
          have hrest : firstOcc [c] rest = none := by
            cases hf : firstOcc [c] rest with
            | none => rfl
            | some i => rw [hf] at h; simp at h
          rcases List.mem_cons.mp hmem with h1 | h2
          · exact hca h1
          · exact (ih.mp hrest) h2
        · intro h
          have hrest : firstOcc [c] rest = none :=
            ih.mpr (fun hm => h (List.mem_cons_of_mem a hm))
          rw [hrest]
          rfl

/-- Replacing a single-character placeholder by a replacement free of that
character leaves no occurrence of the character. -/
theorem replaceFuel_singleton_not_mem (c : Char) (t : Str) (hct : c ∉ t) :
    ∀ (fuel : Nat) (s : Str), c ∉ replaceFuel [c] t fuel s := by
  intro fuel
  induction fuel with
  | zero => intro s; cases s <;> simp [replaceFuel]
  | succ fuel ih =>
      intro s
      cases s with
      | nil => simp [replaceFuel]
      | cons a rest =>
          by_cases hca : ([c] : Str).isPrefixOf (a :: rest)
          · rw [replaceFuel, if_pos hca]
            simp only [List.length_cons, List.length_nil, Nat.zero_add,
              Nat.sub_self, List.drop_zero]
            intro hmem
            rcases List.mem_append.mp hmem with h1 | h2
            · exact hct h1
            · exact ih rest h2
          · rw [replaceFuel, if_neg hca]
            intro hmem
            rcases List.mem_cons.mp hmem with h1 | h2
            · apply hca
              subst h1
              simp [List.isPrefixOf]
            · exact ih rest h2

/-- When the pattern does not occur, `replaceFuel` is the identity (given
enough fuel). -/
theorem replaceFuel_no_occurrence (old new : Str) :
    ∀ (fuel : Nat) (s : Str), s.length ≤ fuel → firstOcc old s = none →
      replaceFuel old new fuel s = s := by
  intro fuel
  induction fuel with
  | zero =>
      intro s hlen _
      have : s = [] := List.length_eq_zero.mp (Nat.le_zero.mp hlen)
      subst this
      rfl
  | succ fuel ih =>
      intro s hlen hocc
      cases s with
      | nil => rfl
      | cons a rest =>
          rw [firstOcc] at hocc
          by_cases hpre : old.isPrefixOf (a :: rest)
          · rw [if_pos hpre] at hocc; exact absurd hocc (by simp)
          · rw [if_neg hpre] at hocc
            have hrest : firstOcc old rest = none := by
              cases hf : firstOcc old rest with
              | none => rfl
              | some i => rw [hf] at hocc; simp at hocc
            rw [replaceFuel, if_neg hpre,
              ih rest (by simpa using Nat.le_of_succ_le_succ (by simpa using hlen)) hrest]

/-! ## Claim theorems -/

/-- C2: the claim states that for any non-default delimiter, joining the
produced tokens with the delimiter reproduces the stream verbatim.  The
implemented tokenizer however trims every token and drops empty ones for
custom delimiters too (lines 70-75 of cmd_xargs.go), contradicting the
repository's own test, which expects `" alpha "`, `" beta "`, `"gamma "`
to be preserved for delimiter `","`.  This theorem evaluates the code model
at that test input: the tokens come out trimmed, and re-joining them does
not reproduce the stream. -/
theorem customDelimiterTokensNotVerbatim :
    xargsInputs [','] " alpha , beta ,gamma ".data
        = ["alpha".data, "beta".data, "gamma".data] ∧
    List.intercalate [','] (xargsInputs [','] " alpha , beta ,gamma ".data)
        ≠ " alpha , beta ,gamma ".data := by
  decide

/-- C6: on an empty token sequence, the `-r` flag (the spec's `runIfEmpty`)
makes the engine run nothing and report success (the empty result list
aggregates to `none`), while without the flag exactly one invocation of the
bare, unmodified command template is produced. -/
theorem emptyInputPolicy (cmdArgs : List Str) (replaceString : Str) (numArgs : Int)
    (inputs : List Str) (h : inputs = []) :
    planInvocations (xargsPlan cmdArgs inputs replaceString numArgs true) = [] ∧
    aggregateResults ([] : List (Option String)) = none ∧
    planInvocations (xargsPlan cmdArgs inputs replaceString numArgs false)
        = [bareInvocation cmdArgs] ∧
    (bareInvocation cmdArgs).argv = cmdArgs := by
  subst h
  refine ⟨rfl, rfl, ?_, rfl⟩
  rfl

/-- Witness for C6 at the default template. -/
theorem emptyInputPolicy_witness :
    planInvocations (xargsPlan ["echo".data] [] [] 0 true) = [] ∧
    aggregateResults ([] : List (Option String)) = none ∧
    planInvocations (xargsPlan ["echo".data] [] [] 0 false)
        = [bareInvocation ["echo".data]] ∧
    (bareInvocation ["echo".data]).argv = ["echo".data] :=
  emptyInputPolicy ["echo".data] [] 0 [] rfl

/-- C10: every job dispatched for a non-empty token sequence runs with
stdout and stderr attached but no stdin, while the single bare-template run
on empty input additionally attaches the engine's stdin. -/
theorem jobStreamWiring (cmdArgs : List Str) (replaceString : Str) (numArgs : Int)
    (noRun : Bool) (inputs : List Str) (hne : inputs ≠ []) :
    (∀ inv ∈ planInvocations (xargsPlan cmdArgs inputs replaceString numArgs noRun),
        inv.stdinAttached = false ∧ inv.stdoutAttached = true ∧ inv.stderrAttached = true) ∧
    (∀ inv ∈ planInvocations (xargsPlan cmdArgs [] replaceString numArgs false),
        inv.stdinAttached = true ∧ inv.stdoutAttached = true ∧ inv.stderrAttached = true) := by
  constructor
  · intro inv hinv
    have hie : inputs.isEmpty = false := by
      cases inputs with
      | nil => exact absurd rfl hne
      | cons a t => rfl
    cases hrs : replaceString.isEmpty with
    | true =>
        simp [xargsPlan, hie, hrs, planInvocations] at hinv
        obtain ⟨a, _, ha⟩ := hinv
        subst ha
        exact ⟨rfl, rfl, rfl⟩
    | false =>
        simp [xargsPlan, hie, hrs, planInvocations] at hinv
        obtain ⟨a, _, ha⟩ := hinv
        subst ha
        exact ⟨rfl, rfl, rfl⟩
  · intro inv hinv
    simp [xargsPlan, planInvocations] at hinv
    subst hinv
    exact ⟨rfl, rfl, rfl⟩

/-- Witness for C10 with one token. -/
theorem jobStreamWiring_witness :
    (∀ inv ∈ planInvocations (xargsPlan ["echo".data] ["a".data] [] 0 false),
        inv.stdinAttached = false ∧ inv.stdoutAttached = true ∧ inv.stderrAttached = true) ∧
    (∀ inv ∈ planInvocations (xargsPlan ["echo".data] [] [] 0 false),
        inv.stdinAttached = true ∧ inv.stdoutAttached = true ∧ inv.stderrAttached = true) :=
  jobStreamWiring ["echo".data] [] 0 false ["a".data] (by decide)

/-- C8: the shared `lastErr` cell aggregates per-job outcomes to the most
recently recorded failure, and it reports success (no error) exactly when no
job failed. -/
theorem lastFailureWins {α : Type} (results : List (Option α)) :
    aggregateResults results = (results.filterMap id).getLast? ∧
    (aggregateResults results = none ↔ ∀ r ∈ results, r = none) := by
  have key : ∀ (rs : List (Option α)) (acc : Option α),
      rs.foldl recordResult acc =
        match (rs.filterMap id).getLast? with
        | some e => some e
        | none => acc := by
    intro rs
    induction rs with
    | nil => intro acc; rfl
    | cons r rs ih =>
        intro acc
        cases r with
        | none => simpa [List.foldl_cons, recordResult] using ih acc
        | some e =>
            rw [List.foldl_cons]
            show rs.foldl recordResult (some e) = _
            rw [ih (some e)]
            have : (List.filterMap id (some e :: rs)) = e :: List.filterMap id rs := by
              simp
            rw [this]
            cases hl : List.filterMap id rs with
            | nil => simp
            | cons b t =>
                rw [List.getLast?_cons_cons]
                cases hbl : (b :: t).getLast? with
                | some x => rfl
                | none => exact absurd (List.getLast?_eq_none_iff.mp hbl) (by simp)
  constructor
  · rw [aggregateResults, key]
    cases (results.filterMap id).getLast? <;> rfl
  · constructor
    · intro hagg r hr
      cases r with
      | none => rfl
      | some e =>
          exfalso
          have hmem : e ∈ results.filterMap id :=
            List.mem_filterMap.mpr ⟨some e, hr, rfl⟩
          have hne2 : results.filterMap id ≠ [] := List.ne_nil_of_mem hmem
          rw [aggregateResults, key] at hagg
          cases hl : (results.filterMap id).getLast? with
          | some x => rw [hl] at hagg; simp at hagg
          | none => exact hne2 (List.getLast?_eq_none_iff.mp hl)
    · intro hall
      rw [aggregateResults, key]
      have hnil : results.filterMap id = [] := by
        rw [List.filterMap_eq_nil_iff]
        intro r hr
        rw [hall r hr]
        rfl
      rw [hnil]
      rfl

/-- C5 counterexample: a token that itself contains the placeholder
reintroduces the placeholder into the substituted argv.  With template
`["X"]`, placeholder `"X"` and token `"aXa"`, the built job's argv is
`["aXa"]`, which contains `"X"` at index 1. -/
theorem replacePlaceholderSurvivesToken :
    buildReplaceArgvs [['X']] [['a', 'X', 'a']] ['X'] = [[['a', 'X', 'a']]] ∧
    firstOcc ['X'] ['a', 'X', 'a'] = some 1 := by
  decide

/-- C5 amended: with a single-character placeholder that occurs in no token,
no built job's argv contains the placeholder after substitution.  (Both
restrictions are needed: a token containing the placeholder survives into
the argv, and a multi-character placeholder can be recreated across a
replacement boundary, e.g. replacing `"aba"` by the token `"b"` inside the
argument `"aabaa"` yields `"aba"` again.) -/
theorem replaceSingleCharPlaceholderEliminated (baseCmd : List Str) (inputs : List Str)
    (c : Char) (hc : ∀ t ∈ inputs, firstOcc [c] t = none) :
    ∀ job ∈ buildReplaceArgvs baseCmd inputs [c], ∀ arg ∈ job, firstOcc [c] arg = none := by
  intro job hjob arg harg
  rw [buildReplaceArgvs, List.mem_map] at hjob
  obtain ⟨tok, htok, hjeq⟩ := hjob
  subst hjeq
  rw [List.mem_map] at harg
  obtain ⟨a0, _, haeq⟩ := harg
  subst haeq
  rw [firstOcc_singleton_none_iff]
  have hct : c ∉ tok := (firstOcc_singleton_none_iff c tok).mp (hc tok htok)
  rw [replaceAll]
  have : ([c] : Str).isEmpty = false := rfl
  rw [this]
  simp only [Bool.false_eq_true, if_false]
  exact replaceFuel_singleton_not_mem c tok hct a0.length a0

/-- Witness for the amended C5: template `["X"]`, token `"a"`. -/
theorem replaceSingleCharPlaceholderEliminated_witness :
    firstOcc ['X'] (replaceAll ['X'] ['X'] ['a']) = none :=
  replaceSingleCharPlaceholderEliminated [['X']] [['a']] 'X' (by decide)
    [replaceAll ['X'] ['X'] ['a']] (by decide) (replaceAll ['X'] ['X'] ['a']) (by decide)

/-- C3: in replace mode (non-empty placeholder), exactly one job is built
per token, in token order; job `i`'s argv is the template with every
occurrence of the placeholder replaced by token `i` in each argument
independently; and an argument with no occurrence of the placeholder is
copied unchanged. -/
theorem replaceModeJobs (baseCmd : List Str) (inputs : List Str) (replaceString : Str)
    (hr : replaceString ≠ []) :
    (buildReplaceArgvs baseCmd inputs replaceString).length = inputs.length ∧
    (∀ i : Nat, (buildReplaceArgvs baseCmd inputs replaceString)[i]?
        = (inputs[i]?).map
            (fun tok => baseCmd.map (fun arg => replaceAll arg replaceString tok))) ∧
    (∀ arg tok : Str, firstOcc replaceString arg = none →
        replaceAll arg replaceString tok = arg) := by
  refine ⟨by simp [buildReplaceArgvs], ?_, ?_⟩
  · intro i
    simp [buildReplaceArgvs]
  · intro arg tok hocc
    rw [replaceAll]
    have hie : replaceString.isEmpty = false := by
      cases replaceString with
      | nil => exact absurd rfl hr
      | cons a t => rfl
    rw [hie]
    simp only [Bool.false_eq_true, if_false]
    exact replaceFuel_no_occurrence replaceString tok arg.length arg (Nat.le_refl _) hocc

/-- Witness for C3: scenario A, template `["echo", "X"]`, placeholder `"X"`,
tokens `["a", "b", "c"]`. -/
theorem replaceModeJobs_witness :
    (buildReplaceArgvs ["echo".data, "X".data] ["a".data, "b".data, "c".data] "X".data).length
      = 3 :=
  (replaceModeJobs ["echo".data, "X".data] ["a".data, "b".data, "c".data] "X".data
    (by decide)).1

/-- C9: with the default newline delimiter every produced token is non-empty
and carries no leading or trailing whitespace. -/
theorem defaultDelimiterTokensTrimmed (stream : Str) (t : Str)
    (ht : t ∈ xargsInputs ['\n'] stream) :
    t ≠ [] ∧ (∀ c, t.head? = some c → goIsSpace c = false) ∧
      (∀ c, t.getLast? = some c → goIsSpace c = false) := by
  rw [xargsInputs] at ht
  simp only [if_pos rfl] at ht
  rw [List.mem_filter] at ht
  obtain ⟨hmem, hbool⟩ := ht
  have htne : t ≠ [] := by
    intro h
    subst h
    simp at hbool
  rw [List.mem_map] at hmem
  obtain ⟨r, _, hr⟩ := hmem
  refine ⟨htne, ?_, ?_⟩
  · intro c hc
    have hts : trimSpace r = t := hr
    rw [trimSpace] at hts
    obtain ⟨u, hu⟩ := exists_append_trimRight (trimLeft r)
    rw [hts] at hu
    cases htt : t with
    | nil => exact absurd htt htne
    | cons c0 t0 =>
        rw [htt] at hc hu
        simp at hc
        subst hc
        exact dropWhile_head_not goIsSpace r c0 (t0 ++ u) hu
  · intro c hc
    have hts : trimSpace r = t := hr
    rw [trimSpace] at hts
    rw [← hts] at hc
    exact trimRight_getLast_not (trimLeft r) c hc

/-- Witness for C9 at the stream `"  a  \n"`. -/
theorem defaultDelimiterTokensTrimmed_witness : (['a'] : Str) ≠ [] :=
  (defaultDelimiterTokensTrimmed "  a  \n".data ['a'] (by decide)).1

/-- Batching the empty list yields no batches, at any fuel. -/
theorem chunksFuel_nil {α : Type} (k : Nat) (fuel : Nat) :
    chunksFuel k fuel ([] : List α) = [] := by
  cases fuel <;> rfl

/-- Concatenating the batches reproduces the input (positive batch size,
enough fuel). -/
theorem chunksFuel_join {α : Type} (k : Nat) (hk : 0 < k) :
    ∀ (fuel : Nat) (l : List α), l.length ≤ fuel → (chunksFuel k fuel l).flatten = l := by
  intro fuel
  induction fuel with
  | zero =>
      intro l hlen
      have : l = [] := List.length_eq_zero.mp (Nat.le_zero.mp hlen)
      subst this
      rfl
  | succ fuel ih =>
      intro l hlen
      cases l with
      | nil => rfl
      | cons x xs =>
          rw [chunksFuel, if_neg (Nat.pos_iff_ne_zero.mp hk)]
          rw [List.flatten_cons]
          rw [ih ((x :: xs).drop k) (by
            rw [List.length_drop]
            have : (x :: xs).length ≤ fuel + 1 := hlen
            omega)]
          exact List.take_append_drop k (x :: xs)

/-- Number of batches is the ceiling of length over batch size (positive
batch size, enough fuel). -/
theorem chunksFuel_length {α : Type} (k : Nat) (hk : 0 < k) :
    ∀ (fuel : Nat) (l : List α), l.length ≤ fuel →
      (chunksFuel k fuel l).length = (l.length + k - 1) / k := by
  intro fuel
  induction fuel with
  | zero =>
      intro l hlen
      have : l = [] := List.length_eq_zero.mp (Nat.le_zero.mp hlen)
      subst this
      rw [chunksFuel_nil]
      simp [Nat.div_eq_of_lt (by omega : k - 1 < k)]
  | succ fuel ih =>
      intro l hlen
      cases l with
      | nil =>
          rw [chunksFuel_nil]
          simp [Nat.div_eq_of_lt (by omega : k - 1 < k)]
      | cons x xs =>
          rw [chunksFuel, if_neg (Nat.pos_iff_ne_zero.mp hk)]
          rw [List.length_cons]
          rw [ih ((x :: xs).drop k) (by
            rw [List.length_drop]
            have : (x :: xs).length ≤ fuel + 1 := hlen
            omega)]
          rw [List.length_drop]
          have hlen1 : 0 < (x :: xs).length := by simp
          have hrw : (x :: xs).length + k - 1 = ((x :: xs).length - 1) + k := by omega
          rw [hrw, Nat.add_div_right _ hk]
          rcases le_or_lt k (x :: xs).length with hle | hlt
          · have h3 : (x :: xs).length - k + k - 1 = (x :: xs).length - 1 := by omega
            rw [h3]
          · have h0 : (x :: xs).length - k = 0 := by omega
            rw [h0]
            have h1 : ((x :: xs).length - 1) / k = 0 := Nat.div_eq_of_lt (by omega)
            have h2 : (0 + k - 1) / k = 0 := Nat.div_eq_of_lt (by omega)
            rw [h1, h2]

/-- Every batch except possibly the last has exactly `k` elements (positive
batch size, enough fuel). -/
theorem chunksFuel_dropLast_length {α : Type} (k : Nat) (hk : 0 < k) :
    ∀ (fuel : Nat) (l : List α), l.length ≤ fuel →
      ∀ b ∈ (chunksFuel k fuel l).dropLast, b.length = k := by
  intro fuel
  induction fuel with
  | zero =>
      intro l hlen b hb
      have : l = [] := List.length_eq_zero.mp (Nat.le_zero.mp hlen)
      subst this
      rw [chunksFuel_nil] at hb
      simp at hb
  | succ fuel ih =>
      intro l hlen b hb
      cases l with
      | nil =>
          rw [chunksFuel_nil] at hb
          simp at hb
      | cons x xs =>
          rw [chunksFuel, if_neg (Nat.pos_iff_ne_zero.mp hk)] at hb
          cases hrest : chunksFuel k fuel ((x :: xs).drop k) with
          | nil => rw [hrest] at hb; simp at hb
          | cons r rs =>
              rw [hrest, List.dropLast_cons₂, List.mem_cons] at hb
              have hdne : (x :: xs).drop k ≠ [] := by
                intro hdrop
                rw [hdrop, chunksFuel_nil] at hrest
                exact List.noConfusion hrest
              have hklt : k < (x :: xs).length := by
                by_contra hge
                exact hdne (List.drop_eq_nil_of_le (by omega))
              rcases hb with hb1 | hb2
              · subst hb1
                rw [List.length_take]
                omega
              · have := ih ((x :: xs).drop k) (by
                  rw [List.length_drop]
                  have : (x :: xs).length ≤ fuel + 1 := hlen
                  omega) b
                rw [hrest] at this
                exact this hb2

/-- A non-empty list batched at its own length forms a single batch. -/
theorem chunks_length_self {α : Type} (l : List α) (hne : l ≠ []) :
    chunks l.length l = [l] := by
  cases l with
  | nil => exact absurd rfl hne
  | cons x xs =>
      rw [chunks]
      show chunksFuel (x :: xs).length (xs.length + 1) (x :: xs) = [x :: xs]
      rw [chunksFuel, if_neg (by simp)]
      rw [List.take_length, List.drop_length, chunksFuel_nil]

/-- C4: in append mode with a positive batch size `B`, the number of built
jobs is the ceiling of the token count over `B`; every batch but possibly
the last has exactly `B` tokens; concatenating the batches in job order
reproduces the token sequence; each job's argv is the template followed by
its batch; and a non-positive batch size puts all tokens into one job. -/
theorem appendModePartition (baseCmd : List Str) (inputs : List Str) (B : Int)
    (hB : 0 < B) :
    (buildAppendArgvs baseCmd inputs B).length = (inputs.length + B.toNat - 1) / B.toNat ∧
    (∀ batch ∈ (chunks B.toNat inputs).dropLast, batch.length = B.toNat) ∧
    (chunks B.toNat inputs).flatten = inputs ∧
    buildAppendArgvs baseCmd inputs B
        = (chunks B.toNat inputs).map (fun batch => baseCmd ++ batch) ∧
    (∀ B2 : Int, B2 ≤ 0 → inputs ≠ [] →
        buildAppendArgvs baseCmd inputs B2 = [baseCmd ++ inputs]) := by
  have hkpos : 0 < B.toNat := by omega
  have heff : effectiveBatch B inputs = B.toNat := by
    rw [effectiveBatch, if_neg (by omega)]
  refine ⟨?_, ?_, ?_, ?_, ?_⟩
  · rw [buildAppendArgvs, heff, List.length_map, chunks]
    exact chunksFuel_length B.toNat hkpos inputs.length inputs (Nat.le_refl _)
  · intro batch hb
    exact chunksFuel_dropLast_length B.toNat hkpos inputs.length inputs (Nat.le_refl _)
      batch hb
  · exact chunksFuel_join B.toNat hkpos inputs.length inputs (Nat.le_refl _)
  · rw [buildAppendArgvs, heff]
  · intro B2 hB2 hne
    rw [buildAppendArgvs]
    have heff2 : effectiveBatch B2 inputs = inputs.length := by
      rw [effectiveBatch, if_pos hB2]
    rw [heff2, chunks_length_self inputs hne]
    rfl

/-- Witness for C4: scenario B, template `["printf"]`, tokens
`["a", "b", "c", "d", "e"]`, batch size 2. -/
theorem appendModePartition_witness :
    (chunks (2 : Int).toNat ["a".data, "b".data, "c".data, "d".data, "e".data]).flatten
      = ["a".data, "b".data, "c".data, "d".data, "e".data] :=
  (appendModePartition ["printf".data] ["a".data, "b".data, "c".data, "d".data, "e".data]
    2 (by decide)).2.2.1

/-! ## Dispatcher invariant -/

/-- Updating position `j` makes `getD` read the new value there. -/
theorem getD_set_self {α : Type} (l : List α) (j : Nat) (v d : α) (h : j < l.length) :
    (l.set j v).getD j d = v := by
  induction l generalizing j with
  | nil => simp at h
  | cons a t ih =>
      cases j with
      | zero => rfl
      | succ j => exact ih j (by simpa using h)

/-- Updating position `j` leaves `getD` at other positions unchanged. -/
theorem getD_set_ne {α : Type} (l : List α) (i j : Nat) (v d : α) (h : i ≠ j) :
    (l.set j v).getD i d = l.getD i d := by
  induction l generalizing i j with
  | nil => rfl
  | cons a t ih =>
      cases j with
      | zero =>
          cases i with
          | zero => exact absurd rfl h
          | succ i => rfl
      | succ j =>
          cases i with
          | zero => rfl
          | succ i => exact ih i j (fun hh => h (by rw [hh]))

/-- Out-of-range `getD` reads the default. -/
theorem getD_eq_default_of_le {α : Type} (l : List α) (d : α) :
    ∀ i, l.length ≤ i → l.getD i d = d := by
  induction l with
  | nil => intro i _; cases i <;> rfl
  | cons a t ih =>
      intro i hi
      cases i with
      | zero => simp at hi
      | succ i => exact ih i (by simpa using hi)

/-- Exchange law for `countP` under a single-position update. -/
theorem countP_set_balance {α : Type} (p : α → Bool) (l : List α) (j : Nat) (v d : α)
    (h : j < l.length) :
    (l.set j v).countP p + (if p (l.getD j d) then 1 else 0)
      = l.countP p + (if p v then 1 else 0) := by
  induction l generalizing j with
  | nil => simp at h
  | cons a t ih =>
      cases j with
      | zero =>
          show (v :: t).countP p + _ = _
          rw [List.countP_cons, List.countP_cons]
          have hg : (a :: t).getD 0 d = a := rfl
          rw [hg]
          omega
      | succ j =>
          show (a :: t.set j v).countP p + _ = _
          rw [List.countP_cons, List.countP_cons]
          have hg : (a :: t).getD (j + 1) d = t.getD j d := rfl
          rw [hg]
          have := ih j (by simpa using h)
          omega

/-- A replicated list contributes nothing to a count whose predicate rejects
the replicated element. -/
theorem countP_replicate_false {α : Type} (p : α → Bool) (a : α) (hpa : p a = false) :
    ∀ n : Nat, (List.replicate n a).countP p = 0 := by
  intro n
  induction n with
  | zero => rfl
  | succ n ih => rw [List.replicate_succ, List.countP_cons, hpa]; simpa using ih

/-- Reading a replicated list with its element as default always yields the
element. -/
theorem getD_replicate_self {α : Type} (a : α) :
    ∀ (n i : Nat), (List.replicate n a).getD i a = a := by
  intro n
  induction n with
  | zero => intro i; cases i <;> rfl
  | succ n ih =>
      intro i
      rw [List.replicate_succ]
      cases i with
      | zero => rfl
      | succ i => exact ih i

/-- A job whose status is not `notSpawned` is within range. -/
theorem statusOf_lt_length {s : DState} {i : Nat}
    (h : statusOf s i ≠ GStatus.notSpawned) : i < s.gs.length := by
  by_contra hge
  exact h (getD_eq_default_of_le s.gs GStatus.notSpawned i (by omega))

/-- The dispatcher invariant holds initially. -/
theorem init_inv (C n : Nat) : Inv C n (initState n) := by
  have hstat : ∀ i, statusOf (initState n) i = GStatus.notSpawned := by
    intro i
    exact getD_replicate_self GStatus.notSpawned n i
  refine ⟨by simp [initState], ?_, ?_, ?_, ?_⟩
  · show (List.replicate n GStatus.notSpawned).countP isActive ≤ C
    rw [countP_replicate_false isActive GStatus.notSpawned rfl n]
    exact Nat.zero_le C
  · intro k hk
    have : k = 0 := by
      have : MainPC.dispatching 0 = MainPC.dispatching k := hk
      cases this
      rfl
    subst this
    exact ⟨Nat.zero_le n, fun i hi => absurd hi (Nat.not_lt_zero i), fun i _ => hstat i⟩
  · intro j hj
    exact absurd hj (by simp [initState])
  · intro hj
    rcases hj with hj | hj <;> exact absurd hj (by simp [initState])

/-- The dispatcher invariant is preserved by every step. -/
theorem step_inv {C n : Nat} {s s' : DState} (hinv : Inv C n s) (hstep : Step C n s s') :
    Inv C n s' := by
  obtain ⟨hlen, hact, hdisp, hwait, hjoin⟩ := hinv
  cases hstep with
  | acquireSpawn j h1 h2 h3 =>
      obtain ⟨hkn, hstarted, hns⟩ := hdisp j h1
      have hjlen : j < s.gs.length := by omega
      have hold : s.gs.getD j GStatus.notSpawned = GStatus.notSpawned := hns j (Nat.le_refl j)
      refine ⟨by simpa using hlen, ?_, ?_, ?_, ?_⟩
      · have hbal := countP_set_balance isActive s.gs j GStatus.spawned GStatus.notSpawned hjlen
        rw [hold] at hbal
        show (s.gs.set j GStatus.spawned).countP isActive ≤ C
        have : isActive GStatus.notSpawned = false := rfl
        rw [this] at hbal
        have : isActive GStatus.spawned = true := rfl
        rw [this] at hbal
        simp at hbal
        have hacs : activeCount s = s.gs.countP isActive := rfl
        omega
      · intro k hk
        exact absurd hk (by simp)
      · intro j0 hj0
        have : j0 = j := by
          have : MainPC.awaitingReady j = MainPC.awaitingReady j0 := hj0
          cases this
          rfl
        subst this
        refine ⟨h2, ?_, ?_, ?_⟩
        · show (s.gs.set j0 GStatus.spawned).getD j0 GStatus.notSpawned = GStatus.spawned
          exact getD_set_self s.gs j0 GStatus.spawned GStatus.notSpawned hjlen
        · intro i hi
          show isStarted ((s.gs.set j0 GStatus.spawned).getD i GStatus.notSpawned) = true
          rw [getD_set_ne s.gs i j0 GStatus.spawned GStatus.notSpawned (by omega)]
          exact hstarted i hi
        · intro i hi
          show (s.gs.set j0 GStatus.spawned).getD i GStatus.notSpawned = GStatus.notSpawned
          rw [getD_set_ne s.gs i j0 GStatus.spawned GStatus.notSpawned (by omega)]
          exact hns i (by omega)
      · intro hj
        rcases hj with hj | hj <;> exact absurd hj (by simp)
  | readyAck j h1 h2 =>
      obtain ⟨hjn, hsp, hstarted, hns⟩ := hwait j h1
      have hjlen : j < s.gs.length := by omega
      refine ⟨by simpa using hlen, ?_, ?_, ?_, ?_⟩
      · have hbal := countP_set_balance isActive s.gs j GStatus.running GStatus.notSpawned hjlen
        have hold : s.gs.getD j GStatus.notSpawned = GStatus.spawned := hsp
        rw [hold] at hbal
        show (s.gs.set j GStatus.running).countP isActive ≤ C
        have e1 : isActive GStatus.spawned = true := rfl
        have e2 : isActive GStatus.running = true := rfl
        rw [e1, e2] at hbal
        simp at hbal
        have hacs : activeCount s = s.gs.countP isActive := rfl
        omega
      · intro k hk
        have : k = j + 1 := by
          have : MainPC.dispatching (j + 1) = MainPC.dispatching k := hk
          cases this
          rfl
        subst this
        refine ⟨by omega, ?_, ?_⟩
        · intro i hi
          show isStarted ((s.gs.set j GStatus.running).getD i GStatus.notSpawned) = true
          rcases Nat.lt_or_ge i j with hij | hij
          · rw [getD_set_ne s.gs i j GStatus.running GStatus.notSpawned (by omega)]
            exact hstarted i hij
          · have : i = j := by omega
            subst this
            rw [getD_set_self s.gs i GStatus.running GStatus.notSpawned hjlen]
            rfl
        · intro i hi
          show (s.gs.set j GStatus.running).getD i GStatus.notSpawned = GStatus.notSpawned
          rw [getD_set_ne s.gs i j GStatus.running GStatus.notSpawned (by omega)]
          exact hns i (by omega)
      · intro j0 hj0
        exact absurd hj0 (by simp)
      · intro hj
        rcases hj with hj | hj <;> exact absurd hj (by simp)
  | loopExit h1 =>
      obtain ⟨hkn, hstarted, hns⟩ := hdisp n h1
      refine ⟨hlen, hact, ?_, ?_, ?_⟩
      · intro k hk
        exact absurd hk (by simp)
      · intro j0 hj0
        exact absurd hj0 (by simp)
      · intro _
        exact ⟨fun i hi => hstarted i hi, fun i hi => hns i hi⟩
  | finish i0 h1 =>
      have hi0len : i0 < s.gs.length := statusOf_lt_length (by rw [h1]; simp)
      have hfin : ∀ i, i ≠ i0 →
          (s.gs.set i0 GStatus.finished).getD i GStatus.notSpawned = statusOf s i :=
        fun i hi => getD_set_ne s.gs i i0 GStatus.finished GStatus.notSpawned hi
      have hfin0 : (s.gs.set i0 GStatus.finished).getD i0 GStatus.notSpawned
          = GStatus.finished :=
        getD_set_self s.gs i0 GStatus.finished GStatus.notSpawned hi0len
      refine ⟨by simpa using hlen, ?_, ?_, ?_, ?_⟩
      · have hbal := countP_set_balance isActive s.gs i0 GStatus.finished GStatus.notSpawned
          hi0len
        have hold : s.gs.getD i0 GStatus.notSpawned = GStatus.running := h1
        rw [hold] at hbal
        show (s.gs.set i0 GStatus.finished).countP isActive ≤ C
        have e1 : isActive GStatus.running = true := rfl
        have e2 : isActive GStatus.finished = false := rfl
        rw [e1, e2] at hbal
        simp at hbal
        have hacs : activeCount s = s.gs.countP isActive := rfl
        omega
      · intro k hk
        obtain ⟨hkn, hstarted, hns⟩ := hdisp k hk
        have hi0k : i0 < k := by
          by_contra hge
          have := hns i0 (by omega)
          rw [h1] at this
          exact GStatus.noConfusion this
        refine ⟨hkn, ?_, ?_⟩
        · intro i hi
          show isStarted ((s.gs.set i0 GStatus.finished).getD i GStatus.notSpawned) = true
          by_cases hii : i = i0
          · subst hii
            rw [hfin0]
            rfl
          · rw [hfin i hii]
            exact hstarted i hi
        · intro i hi
          show (s.gs.set i0 GStatus.finished).getD i GStatus.notSpawned = GStatus.notSpawned
          rw [hfin i (by omega)]
          exact hns i hi
      · intro j0 hj0
        obtain ⟨hjn, hsp, hstarted, hns⟩ := hwait j0 hj0
        have hne : i0 ≠ j0 := by
          intro hh
          subst hh
          rw [h1] at hsp
          exact GStatus.noConfusion hsp
        have hi0j : i0 < j0 := by
          rcases Nat.lt_or_ge i0 j0 with hlt | hge
          · exact hlt
          · have : j0 < i0 := by omega
            have := hns i0 this
            rw [h1] at this
            exact absurd this (by simp)
        refine ⟨hjn, ?_, ?_, ?_⟩
        · show (s.gs.set i0 GStatus.finished).getD j0 GStatus.notSpawned = GStatus.spawned
          rw [hfin j0 (fun hh => hne hh.symm)]
          exact hsp
        · intro i hi
          show isStarted ((s.gs.set i0 GStatus.finished).getD i GStatus.notSpawned) = true
          by_cases hii : i = i0
          · subst hii
            rw [hfin0]
            rfl
          · rw [hfin i hii]
            exact hstarted i hi
        · intro i hi
          show (s.gs.set i0 GStatus.finished).getD i GStatus.notSpawned = GStatus.notSpawned
          rw [hfin i (by omega)]
          exact hns i hi
      · intro hj
        obtain ⟨hstarted, hns⟩ := hjoin hj
        have hi0n : i0 < n := by
          by_contra hge
          have := hns i0 (by omega)
          rw [h1] at this
          exact GStatus.noConfusion this
        refine ⟨?_, ?_⟩
        · intro i hi
          show isStarted ((s.gs.set i0 GStatus.finished).getD i GStatus.notSpawned) = true
          by_cases hii : i = i0
          · subst hii
            rw [hfin0]
            rfl
          · rw [hfin i hii]
            exact hstarted i hi
        · intro i hi
          show (s.gs.set i0 GStatus.finished).getD i GStatus.notSpawned = GStatus.notSpawned
          rw [hfin i (by omega)]
          exact hns i hi
  | joinAll h1 h2 =>
      obtain ⟨hstarted, hns⟩ := hjoin (Or.inl h1)
      refine ⟨hlen, hact, ?_, ?_, ?_⟩
      · intro k hk
        exact absurd hk (by simp)
      · intro j0 hj0
        exact absurd hj0 (by simp)
      · intro _
        exact ⟨hstarted, hns⟩

/-- Every reachable dispatcher state satisfies the invariant. -/
theorem reach_inv {C n : Nat} {s : DState} (h : Reach C n s) : Inv C n s := by
  induction h with
  | init => exact init_inv C n
  | step hr hs ih => exact step_inv ih hs

/-- C1: in every reachable state of the dispatcher with gate capacity `C`,
at most `C` jobs are running; whenever job `j` has acquired the gate, every
earlier job has already acknowledged its start (strict start ordering); and
jobs may finish in any order — there is a reachable state in which job 1 has
finished while job 0 is still running. -/
theorem dispatcherBoundAndStartOrder (C n : Nat) (s : DState) (h : Reach C n s) :
    runningCount s ≤ C ∧
    (∀ i j, i < j → statusOf s j ≠ GStatus.notSpawned →
      isStarted (statusOf s i) = true) ∧
    (∃ s2 : DState, Reach 2 2 s2 ∧ statusOf s2 0 = GStatus.running ∧
      statusOf s2 1 = GStatus.finished) := by
  obtain ⟨hlen, hact, hdisp, hwait, hjoin⟩ := reach_inv h
  refine ⟨?_, ?_, ?_⟩
  · refine le_trans ?_ hact
    exact List.countP_mono_left (fun g _ hg => by cases g <;> simp_all [isRunningStatus, isActive])
  · intro i j hij hj
    cases hps : s.pc with
    | dispatching k =>
        obtain ⟨hkn, hstarted, hns⟩ := hdisp k hps
        have hjk : j < k := by
          by_contra hge
          exact hj (hns j (by omega))
        exact hstarted i (by omega)
    | awaitingReady j0 =>
        obtain ⟨hjn, hsp, hstarted, hns⟩ := hwait j0 hps
        have hjj0 : j ≤ j0 := by
          by_contra hgt
          exact hj (hns j (by omega))
        exact hstarted i (by omega)
    | joining =>
        obtain ⟨hstarted, hns⟩ := hjoin (Or.inl hps)
        have hjn : j < n := by
          by_contra hge
          exact hj (hns j (by omega))
        exact hstarted i (by omega)
    | done =>
        obtain ⟨hstarted, hns⟩ := hjoin (Or.inr hps)
        have hjn : j < n := by
          by_contra hge
          exact hj (hns j (by omega))
        exact hstarted i (by omega)
  · refine ⟨DState.mk (MainPC.dispatching 2) [GStatus.running, GStatus.finished],
      ?_, rfl, rfl⟩
    have t0 : Reach 2 2 (initState 2) := Reach.init
    have t1 : Reach 2 2
        (DState.mk (MainPC.awaitingReady 0) [GStatus.spawned, GStatus.notSpawned]) :=
      Reach.step t0 (Step.acquireSpawn _ 0 rfl (by decide) (by decide))
    have t2 : Reach 2 2
        (DState.mk (MainPC.dispatching 1) [GStatus.running, GStatus.notSpawned]) :=
      Reach.step t1 (Step.readyAck _ 0 rfl rfl)
    have t3 : Reach 2 2
        (DState.mk (MainPC.awaitingReady 1) [GStatus.running, GStatus.spawned]) :=
      Reach.step t2 (Step.acquireSpawn _ 1 rfl (by decide) (by decide))
    have t4 : Reach 2 2
        (DState.mk (MainPC.dispatching 2) [GStatus.running, GStatus.running]) :=
      Reach.step t3 (Step.readyAck _ 1 rfl rfl)
    exact Reach.step t4 (Step.finish _ 1 rfl)

/-- Witness for C1 at capacity 1, three jobs, in the initial state. -/
theorem dispatcherBoundAndStartOrder_witness : runningCount (initState 3) ≤ 1 :=
  (dispatcherBoundAndStartOrder 1 3 (initState 3) Reach.init).1

/-- C7 counterexample: the claim says a configured `maxConcurrency` below 1
is coerced to 1, but `make(chan struct{}, maxProcs)` uses the configured
value verbatim, so the effective gate capacity for `-P 0` is 0, not at
least 1. -/
theorem semaphoreCapacityNotCoerced :
    semaphoreCapacity 0 = 0 ∧ ¬ (1 ≤ semaphoreCapacity 0) := by
  decide

/-- C7 amended: `maxConcurrency` is neither normalized nor rejected — the
gate capacity is the configured value verbatim, and with capacity 0 the
dispatcher never admits any job: in every reachable state every job is still
unspawned (the Go program blocks forever on the unbuffered channel). -/
theorem gateCapacityUsedVerbatim (P : Int) (n : Nat) (s : DState) (h : Reach 0 n s) :
    semaphoreCapacity P = P ∧ ∀ i, statusOf s i = GStatus.notSpawned := by
  refine ⟨rfl, ?_⟩
  induction h with
  | init => exact fun i => getD_replicate_self GStatus.notSpawned n i
  | step hr hs ih =>
      cases hs with
      | acquireSpawn j h1 h2 h3 => exact absurd h3 (Nat.not_lt_zero _)
      | readyAck j h1 h2 =>
          rw [ih j] at h2
          exact absurd h2 (by simp)
      | loopExit h1 => exact ih
      | finish i0 h1 =>
          rw [ih i0] at h1
          exact absurd h1 (by simp)
      | joinAll h1 h2 => exact ih

/-- Witness for the amended C7: capacity 0, one job, initial state. -/
theorem gateCapacityUsedVerbatim_witness :
    statusOf (initState 1) 0 = GStatus.notSpawned :=
  (gateCapacityUsedVerbatim 0 1 (initState 1) Reach.init).2 0

end Gobox

